import Mathlib

/-!
Verification of the osquery-defense-kit FleetDM converter
(`cmd/convert/main.go`).

The converter is a single-pass text processor: it parses `.sql` files
(line-oriented header-comment metadata extraction), normalizes fields,
groups records by category and serializes them into FleetDM YAML
documents.  We embed the program shallowly: Go strings are modelled as
`List Char` (a scanner line never contains a newline, but the
definitions are total on all character lists), every pure Go function
becomes a Lean function of the same name, and the file-writing loop of
`writeFleetYAML` becomes a function from the record list to the list of
(file name, file content) pairs, parametrized by the iteration order of
the Go map `groups` (Go randomizes map iteration order).
-/

/-! ### Character classes and small string helpers -/

/-- The character class `\s` of Go's regexp package: `[\t\n\f\r ]`. -/
def reSpace (c : Char) : Bool :=
  c == ' ' || c == '\t' || c == '\n' || c == '\x0c' || c == '\r'

/-- `unicode.IsSpace`, the class used by `strings.TrimSpace` and
`strings.Fields`: `[\t\n\v\f\r U+0085 U+00A0 ]`. -/
def goSpace (c : Char) : Bool :=
  c == ' ' || c == '\t' || c == '\n' || c == '\x0b' || c == '\x0c' ||
  c == '\r' || c == '\x85' || c == '\xa0'

/-- `strings.TrimSpace`: drop `unicode.IsSpace` characters from both ends. -/
def goTrimSpace (s : List Char) : List Char :=
  ((s.dropWhile goSpace).reverse.dropWhile goSpace).reverse

/-- Worker for `strings.Fields`: `acc` is the reversed current word. -/
def fieldsAux : List Char → List Char → List (List Char)
  | acc, [] => if acc = [] then [] else [acc.reverse]
  | acc, c :: cs =>
    if goSpace c then
      if acc = [] then fieldsAux [] cs else acc.reverse :: fieldsAux [] cs
    else fieldsAux (c :: acc) cs

/-- `strings.Fields`: split around runs of `unicode.IsSpace` characters. -/
def fields (s : List Char) : List (List Char) := fieldsAux [] s

/-- Join a token list with single spaces (used to build the synthetic
header files of the metadata round-trip property). -/
def joinSp : List (List Char) → List Char
  | [] => []
  | [t] => t
  | t :: ts => t ++ ' ' :: joinSp ts

/-- `strings.ReplaceAll` restricted to a single-character pattern (the
only form the converter uses: `\` ↦ `\\`, `"` ↦ `\"`, `-` ↦ ` `,
`_` ↦ ` `). -/
def replaceAll1 (pat : Char) (rep : List Char) (s : List Char) : List Char :=
  s.foldr (fun c acc => (if c = pat then rep else [c]) ++ acc) []

/-- `strings.TrimSuffix`. -/
def trimSuffixL (suf s : List Char) : List Char :=
  if suf.isSuffixOf s then s.take (s.length - suf.length) else s

/-- `strings.ContainsAny`. -/
def containsAnyL (s chars : List Char) : Bool :=
  s.any (fun c => chars.contains c)

/-- `strings.Split` on `"\n"`. -/
def splitOnNl : List Char → List (List Char)
  | [] => [[]]
  | c :: cs =>
    if c = '\n' then [] :: splitOnNl cs
    else
      match splitOnNl cs with
      | [] => [[c]]
      | l :: ls => (c :: l) :: ls

/-- `strings.Join` with separator `"\n"`. -/
def joinNl : List (List Char) → List Char
  | [] => []
  | [l] => l
  | l :: ls => l ++ '\n' :: joinNl ls

/-- Worker for `natToDigits`; the fuel argument makes the recursion
structural (any fuel above the number suffices). -/
def natToDigitsAux : Nat → Nat → List Char
  | 0, _ => []
  | f + 1, n =>
    if n < 10 then [Nat.digitChar n]
    else natToDigitsAux f (n / 10) ++ [Nat.digitChar (n % 10)]

/-- Decimal digit list of a natural number (`fmt.Sprintf "%d"` on a
non-negative value). -/
def natToDigits (n : Nat) : List Char := natToDigitsAux (n + 1) n

/-- The numeric value of a digit string. -/
def digitsToNat (ds : List Char) : Nat :=
  ds.foldl (fun a c => 10 * a + (c.toNat - 48)) 0

/-- `fmt.Sscanf "%d"` into Go's `int` (64-bit build): the scanned value
is assigned only when it fits in the signed 64-bit range; on a range
error the error is discarded (`parseQuery` ignores `Sscanf`'s result)
and the target keeps its previous value. -/
def sscanfNat (prev : Nat) (ds : List Char) : Nat :=
  if digitsToNat ds < 2 ^ 63 then digitsToNat ds else prev

/-! ### The regular expressions of `main.go`

`tagsRegex = ^--\s*tags:\s*(.+)$`, `platformRegex` and `intervalRegex`
analogous.  RE2 matching of these anchored patterns is deterministic;
`.` does not match `\n` and greedy `\s*` backtracks one character when
the rest after the colon is all whitespace. -/

/-- Model of `FindStringSubmatch` for `^--\s*<key>:\s*(.+)$`, returning
the capture group. -/
def reCapturePlus (key : List Char) (line : List Char) : Option (List Char) :=
  match line with
  | '-' :: '-' :: r1 =>
    let r2 := r1.dropWhile reSpace
    if (key ++ [':']).isPrefixOf r2 then
      let r3 := r2.drop (key.length + 1)
      let t := r3.dropWhile reSpace
      if t = [] then
        match r3.getLast? with
        | some c => if c = '\n' then none else some [c]
        | none => none
      else if t.contains '\n' then none
      else some t
    else none
  | _ => none

/-- Model of `FindStringSubmatch` for `^--\s*interval:\s*(\d+)$`,
returning the capture group. -/
def reCaptureDigits (key : List Char) (line : List Char) : Option (List Char) :=
  match line with
  | '-' :: '-' :: r1 =>
    let r2 := r1.dropWhile reSpace
    if (key ++ [':']).isPrefixOf r2 then
      let r3 := r2.drop (key.length + 1)
      let t := r3.dropWhile reSpace
      if t ≠ [] ∧ t.all Char.isDigit then some t else none
    else none
  | _ => none

/-! ### normalizePlatform, generateName, escapeYAML -/

/-- `normalizePlatform` from `main.go` (`strings.ToLower` restricted to
its ASCII action, which covers every recognized token). -/
def normalizePlatform (platform : List Char) : List Char :=
  let l := platform.map Char.toLower
  if l = "darwin".toList ∨ l = "macos".toList then "darwin".toList
  else if l = "linux".toList then "linux".toList
  else if l = "posix".toList then "darwin,linux".toList
  else if l = "windows".toList then "windows".toList
  else []

/-- `isSeparator` from Go's `strings.Title`: in the ASCII range,
everything except letters, digits and underscore; beyond ASCII the Go
code falls back to `unicode.IsSpace` for non-letters/digits, which we
model by `Char.isWhitespace`. -/
def isSeparatorGo (c : Char) : Bool :=
  if c.toNat ≤ 127 then !(c.isAlphanum || c == '_') else c.isWhitespace

/-- Worker of `strings.Title`: upper-case a character that follows a
separator (the initial previous character is `' '`). -/
def goTitleAux : Char → List Char → List Char
  | _, [] => []
  | prev, c :: cs =>
    (if isSeparatorGo prev then c.toUpper else c) :: goTitleAux c cs

/-- `strings.Title` (ASCII title mapping). -/
def goTitle (s : List Char) : List Char := goTitleAux ' ' s

/-- `generateName` from `main.go`. -/
def generateName (filename category subcategory : List Char) : List Char :=
  let name := trimSuffixL ".sql".toList filename
  let name := replaceAll1 '-' [' '] name
  let name := replaceAll1 '_' [' '] name
  let name := goTitle name
  if subcategory ≠ [] then
    '[' :: category ++ '/' :: subcategory ++ ']' :: ' ' :: name
  else
    '[' :: category ++ ']' :: ' ' :: name

/-- The special-character set of `escapeYAML`. -/
def yamlSpecialChars : List Char :=
  [':', '#', '{', '}', '[', ']', '|', '>', '&', '*', '!', '?', '\'', '\"', '\\']

/-- `escapeYAML` from `main.go`. -/
def escapeYAML (s : List Char) : List Char :=
  if containsAnyL s yamlSpecialChars ||
     "-".toList.isPrefixOf s || "@".toList.isPrefixOf s then
    let s1 := replaceAll1 '\\' ['\\', '\\'] s
    let s2 := replaceAll1 '\"' ['\\', '\"'] s1
    '\"' :: s2 ++ ['\"']
  else s

/-- `escapeYAMLMultiline` from `main.go` (the identity). -/
def escapeYAMLMultiline (s : List Char) : List Char := s

/-! ### The Query record and the header scanner of parseQuery -/

/-- The `Query` struct of `main.go`. -/
structure Query where
  name : List Char
  description : List Char
  query : List Char
  platform : List Char
  tags : List (List Char)
  interval : Nat
  level : Nat
  category : List Char
  subcategory : List Char
deriving DecidableEq

/-- The loop state of the scanner loop in `parseQuery`: the metadata
fields accumulated so far plus the `firstComment` / `inHeader` flags and
the collected `sqlLines`. -/
structure ScanState where
  tags : List (List Char)
  platform : List Char
  interval : Nat
  description : List Char
  firstComment : Bool
  inHeader : Bool
  sqlLines : List (List Char)
deriving DecidableEq

/-- The scanner state at loop entry. -/
def initState : ScanState :=
  { tags := [], platform := [], interval := 0, description := [],
    firstComment := true, inHeader := true, sqlLines := [] }

/-- One iteration of the scanner loop of `parseQuery` (lines 127-165 of
`main.go`). -/
def scanLine (st : ScanState) (line : List Char) : ScanState :=
  if st.inHeader = true ∧ "--".toList.isPrefixOf line = true then
    match reCapturePlus "tags".toList line with
    | some cap => { st with tags := fields cap }
    | none =>
      match reCapturePlus "platform".toList line with
      | some cap => { st with platform := normalizePlatform (goTrimSpace cap) }
      | none =>
        match reCaptureDigits "interval".toList line with
        | some cap => { st with interval := sscanfNat st.interval cap }
        | none =>
          let commentContent := goTrimSpace (line.drop 2)
          if st.firstComment = true ∧ commentContent ≠ [] ∧
             "references:".toList.isPrefixOf commentContent = false ∧
             "false positives:".toList.isPrefixOf commentContent = false then
            { st with description := commentContent, firstComment := false }
          else st
  else
    let st1 :=
      if goTrimSpace line ≠ [] ∧ "--".toList.isPrefixOf line = false then
        { st with inHeader := false }
      else st
    { st1 with sqlLines := st1.sqlLines ++ [line] }

/-- The scanning part of `parseQuery` (lines 122-178): fold the scanner
over the file's lines, trim leading blank lines from the collected SQL,
join and trim, and default the description to the name. -/
def parseQueryLines (lines : List (List Char))
    (name category subcategory : List Char) (level : Nat) : Query :=
  let st := lines.foldl scanLine initState
  let sql := st.sqlLines.dropWhile (fun l => (goTrimSpace l).isEmpty)
  { name := name,
    description := if st.description = [] then name else st.description,
    query := goTrimSpace (joinNl sql),
    platform := st.platform,
    tags := st.tags,
    interval := st.interval,
    level := level,
    category := category,
    subcategory := subcategory }

/-- Model of `levelRegex = ^(\d)-(.+)\.sql$` applied to a file name,
returning the two capture groups (greedy `(.+)` before an anchored
literal suffix captures everything between the dash and the final
`.sql`). -/
def levelMatch (filename : List Char) : Option (Nat × List Char) :=
  match filename with
  | d :: '-' :: rest =>
    if d.isDigit ∧ ".sql".toList.isSuffixOf rest ∧
       rest.length > 4 ∧ '\n' ∉ rest.take (rest.length - 4) then
      some (d.toNat - 48, rest.take (rest.length - 4))
    else none
  | _ => none

/-- `parseQuery` (lines 95-178 of `main.go`) minus the file I/O: takes
the file's scanner lines, the path of the file relative to its category
directory (split at the path separator), and the category. -/
def parseQuery (lines : List (List Char)) (relParts : List (List Char))
    (category : List Char) : Query :=
  let subcategory :=
    match relParts with
    | p :: _ :: _ => p
    | _ => []
  let filename := (relParts.getLast?).getD []
  let (level, filename) :=
    match levelMatch filename with
    | some (lv, base) => (lv, base ++ ".sql".toList)
    | none => (0, filename)
  parseQueryLines lines (generateName filename category subcategory)
    category subcategory level

/-! ### The document writer -/

/-- Serialization of one record (`writeQueryYAML`, lines 292-330),
with `intervalOverride = 0` meaning "no override" exactly as in the Go
call sites. -/
def writeQueryYAML (q : Query) (intervalOverride : Nat) : List Char :=
  let desc := escapeYAML q.description
  let queryText := escapeYAMLMultiline q.query
  let interval := if intervalOverride > 0 then intervalOverride else q.interval
  "apiVersion: v1\n".toList ++
  "kind: query\n".toList ++
  "spec:\n".toList ++
  "  name: ".toList ++ escapeYAML q.name ++ ['\n'] ++
  "  description: ".toList ++ desc ++ ['\n'] ++
  "  query: |\n".toList ++
  ((splitOnNl queryText).map (fun l => "    ".toList ++ l ++ ['\n'])).flatten ++
  (if q.platform ≠ [] then "  platform: ".toList ++ q.platform ++ ['\n'] else []) ++
  (if interval > 0 then "  interval: ".toList ++ natToDigits interval ++ ['\n'] else []) ++
  (if q.category = "detection".toList ∨ q.category = "policy".toList then
    "  logging: differential\n".toList
  else
    "  logging: snapshot\n".toList)

/-- The body of one output document: records serialized in order,
preceded by the `---` document marker for every record but the first. -/
def yamlDocs : List Query → Nat → List Char
  | [], _ => []
  | [q], ov => writeQueryYAML q ov
  | q :: q2 :: qs, ov => writeQueryYAML q ov ++ "---\n".toList ++ yamlDocs (q2 :: qs) ov

/-- The fixed category list of `parseAllQueries` and of the `groups`
map initializer in `writeFleetYAML`. -/
def categories : List (List Char) :=
  ["detection".toList, "policy".toList, "incident_response".toList]

/-- The group of a category: `groups[c]` after the append loop of
`writeFleetYAML` (appending preserves the original record order). -/
def groupFor (qs : List Query) (c : List Char) : List Query :=
  qs.filter (fun q => q.category = c)

/-- Output file name of a category:
`fmt.Sprintf("chainguard-%s.yml", strings.ReplaceAll(category, "_", "-"))`. -/
def catFileName (c : List Char) : List Char :=
  "chainguard-".toList ++ replaceAll1 '_' ['-'] c ++ ".yml".toList

/-- `writeFleetYAML` (lines 214-290) as the list of (file name, file
content) pairs it creates, in creation order.  `order` is the iteration
order of the Go map `groups`; when every record's category is one of
`categories`, the key set of `groups` is exactly `categories`, so a run
of the program corresponds to an `order` that is a permutation of
`categories`. -/
def writeFleetYAML (order : List (List Char)) (qs : List Query) :
    List (List Char × List Char) :=
  (order.filterMap (fun c =>
    if groupFor qs c = [] then none
    else some (catFileName c, yamlDocs (groupFor qs c) 0))) ++
  (if groupFor qs "detection".toList = [] then []
   else [("chainguard-detection-5min.yml".toList,
          yamlDocs (groupFor qs "detection".toList) 300)]) ++
  [("chainguard-all.yml".toList, yamlDocs qs 0)]

/-! ### Spec-side definitions

The following definitions are written from the specification's words,
to be compared with the embedded code above. -/

/-- Spec side (escaping rule): a string must be quoted iff it contains
a character of the special set or starts with `-` or `@`. -/
def needsQuoteSpec (s : List Char) : Prop :=
  (∃ c ∈ s, c ∈ yamlSpecialChars) ∨ s.head? = some '-' ∨ s.head? = some '@'

instance (s : List Char) : Decidable (needsQuoteSpec s) := by
  unfold needsQuoteSpec; infer_instance

/-- Spec side (escaping rule): internal backslashes and double quotes
each escaped, in one pass. -/
def escapeCharsSpec (s : List Char) : List Char :=
  s.foldr (fun c acc =>
    (if c = '\\' then ['\\', '\\']
     else if c = '\"' then ['\\', '\"'] else [c]) ++ acc) []

/-- Spec side (platform normalization table), applied to the already
lower-cased token. -/
def platformTableSpec (l : List Char) : List Char :=
  if l = "darwin".toList ∨ l = "macos".toList then "darwin".toList
  else if l = "linux".toList then "linux".toList
  else if l = "posix".toList then "darwin,linux".toList
  else if l = "windows".toList then "windows".toList
  else []

/-- Spec side (serialization): the fixed envelope and the name,
description and query fields of one record. -/
def yamlPrefixSpec (q : Query) : List Char :=
  "apiVersion: v1\n".toList ++
  "kind: query\n".toList ++
  "spec:\n".toList ++
  "  name: ".toList ++ escapeYAML q.name ++ ['\n'] ++
  "  description: ".toList ++ escapeYAML q.description ++ ['\n'] ++
  "  query: |\n".toList ++
  ((splitOnNl q.query).map (fun l => "    ".toList ++ l ++ ['\n'])).flatten

/-- Spec side: the platform field, emitted only if non-empty. -/
def platformPartSpec (q : Query) : List Char :=
  if q.platform ≠ [] then "  platform: ".toList ++ q.platform ++ ['\n'] else []

/-- Spec side: the resolved interval — the override if one is
specified, else the record's own interval. -/
def resolvedInterval (q : Query) (override : Nat) : Nat :=
  if override > 0 then override else q.interval

/-- Spec side: the interval field, emitted iff the resolved interval is
positive. -/
def intervalPartSpec (q : Query) (override : Nat) : List Char :=
  if resolvedInterval q override > 0 then
    "  interval: ".toList ++ natToDigits (resolvedInterval q override) ++ ['\n']
  else []

/-- Spec side: the logging mode — differential for detection/policy,
snapshot otherwise. -/
def loggingPartSpec (q : Query) : List Char :=
  if q.category = "detection".toList ∨ q.category = "policy".toList then
    "  logging: differential\n".toList
  else "  logging: snapshot\n".toList

/-- A line is part of the header region while it is blank or a comment
line; the first non-blank non-comment line ends header mode for good. -/
def headerP (l : List Char) : Bool :=
  "--".toList.isPrefixOf l || (goTrimSpace l).isEmpty

/-- A header line matched (and consumed) by one of the three directive
regexes. -/
def isDirective (l : List Char) : Bool :=
  (reCapturePlus "tags".toList l).isSome ||
  (reCapturePlus "platform".toList l).isSome ||
  (reCaptureDigits "interval".toList l).isSome

/-- Spec side (description rule): the value a header line contributes
as a description candidate — its comment content, provided the line is
a comment, not a directive, non-empty after stripping, and does not
begin with `references:` or `false positives:`. -/
def descCandidateVal (l : List Char) : Option (List Char) :=
  if "--".toList.isPrefixOf l = true ∧ isDirective l = false then
    let c := goTrimSpace (l.drop 2)
    if c ≠ [] ∧ "references:".toList.isPrefixOf c = false ∧
       "false positives:".toList.isPrefixOf c = false then some c
    else none
  else none

/-- Spec side (description rule): the first candidate among the header
region's lines, defaulting to the generated name. -/
def descriptionSpec (lines : List (List Char)) (name : List Char) : List Char :=
  (((lines.takeWhile headerP).filterMap descCandidateVal).head?).getD name

/-- Spec side (amended body rule): every line is kept except the
comment lines of the header region (consumed or not); then leading
blank lines are dropped and the joined text is trimmed. -/
def bodySpec (lines : List (List Char)) : List Char :=
  let kept := (lines.takeWhile headerP).filter
      (fun l => !("--".toList.isPrefixOf l)) ++ lines.dropWhile headerP
  goTrimSpace (joinNl (kept.dropWhile (fun l => (goTrimSpace l).isEmpty)))

/-- The state of the literal reading of claim C1's body rule: a line is
appended unless it is both still in header mode and a comment line
consumed as a directive or as the description. -/
structure ClaimState where
  firstComment : Bool
  inHeader : Bool
  out : List (List Char)
deriving DecidableEq

/-- One step of the literal claim C1 rule. -/
def claimC1Step (st : ClaimState) (l : List Char) : ClaimState :=
  if st.inHeader = true ∧ "--".toList.isPrefixOf l = true then
    if isDirective l = true then st
    else
      match descCandidateVal l with
      | some _ =>
        if st.firstComment then { st with firstComment := false } else { st with out := st.out ++ [l] }
      | none => { st with out := st.out ++ [l] }
  else
    let st1 :=
      if goTrimSpace l ≠ [] ∧ "--".toList.isPrefixOf l = false then
        { st with inHeader := false }
      else st
    { st1 with out := st1.out ++ [l] }

/-- The body that claim C1's literal reading predicts. -/
def claimC1Body (lines : List (List Char)) : List Char :=
  let st := lines.foldl claimC1Step
    { firstComment := true, inHeader := true, out := [] }
  goTrimSpace (joinNl (st.out.dropWhile (fun l => (goTrimSpace l).isEmpty)))

/-- A concrete detection record, used to instantiate theorems with
hypotheses on concrete runs. -/
def sampleDetectionQuery : Query :=
  { name := "[detection] Evil".toList,
    description := "Detects evil".toList,
    query := "SELECT 1;".toList,
    platform := [],
    tags := [],
    interval := 0,
    level := 0,
    category := "detection".toList,
    subcategory := [] }

/-! ### Helper lemmas -/

theorem replaceAll1_nil (p : Char) (r : List Char) : replaceAll1 p r [] = [] := rfl

theorem replaceAll1_cons (p : Char) (r : List Char) (c : Char) (s : List Char) :
    replaceAll1 p r (c :: s) = (if c = p then r else [c]) ++ replaceAll1 p r s := rfl

theorem replaceAll1_append (p : Char) (r : List Char) (a b : List Char) :
    replaceAll1 p r (a ++ b) = replaceAll1 p r a ++ replaceAll1 p r b := by
  induction a with
  | nil => rfl
  | cons c cs ih => simp [replaceAll1_cons, ih]

theorem escapeCharsSpec_cons (c : Char) (s : List Char) :
    escapeCharsSpec (c :: s) =
      (if c = '\\' then ['\\', '\\']
       else if c = '\"' then ['\\', '\"'] else [c]) ++ escapeCharsSpec s := rfl

theorem escapeChars_eq (s : List Char) :
    replaceAll1 '\"' ['\\', '\"'] (replaceAll1 '\\' ['\\', '\\'] s)
      = escapeCharsSpec s := by
  induction s with
  | nil => rfl
  | cons c cs ih =>
    rw [replaceAll1_cons, replaceAll1_append, escapeCharsSpec_cons, ih]
    by_cases h1 : c = '\\'
    · subst h1; rfl
    · by_cases h2 : c = '\"'
      · subst h2; simp [replaceAll1_cons, replaceAll1_nil]
      · simp [h1, h2, replaceAll1_cons, replaceAll1_nil]

theorem isPrefixOf_single (c : Char) (s : List Char) :
    [c].isPrefixOf s = true ↔ s.head? = some c := by
  cases s with
  | nil => simp [show ([c].isPrefixOf ([] : List Char)) = false from rfl]
  | cons d ds =>
    rw [show ([c].isPrefixOf (d :: ds)) = (c == d) by simp [List.isPrefixOf]]
    simp only [beq_iff_eq, List.head?_cons, Option.some.injEq]
    exact eq_comm

theorem escapeYAML_cond (s : List Char) :
    (containsAnyL s yamlSpecialChars ||
      "-".toList.isPrefixOf s || "@".toList.isPrefixOf s) = true ↔
    needsQuoteSpec s := by
  have h1 : "-".toList = ['-'] := rfl
  have h2 : "@".toList = ['@'] := rfl
  rw [needsQuoteSpec, h1, h2]
  simp only [Bool.or_eq_true, isPrefixOf_single, containsAnyL, List.any_eq_true,
    List.contains, List.elem_iff, or_assoc]

theorem writeQueryYAML_decomp (q : Query) (ov : Nat) :
    writeQueryYAML q ov =
      yamlPrefixSpec q ++ platformPartSpec q ++ intervalPartSpec q ov ++
        loggingPartSpec q := by
  unfold writeQueryYAML yamlPrefixSpec platformPartSpec intervalPartSpec
    resolvedInterval loggingPartSpec escapeYAMLMultiline
  simp [List.append_assoc]

/-! ### Claim theorems -/

/-- C4: `escapeYAML` wraps a string in double quotes, escaping internal
backslashes and double quotes, iff the string contains a character of
`:#{}[]|>&*!?'"\` or starts with `-` or `@`, and returns it unchanged
otherwise; `Detected: suspicious activity` is quoted while
`Suspicious login` is left bare. -/
theorem escapeYAML_quoting :
    (∀ s, escapeYAML s =
      if needsQuoteSpec s then '\"' :: escapeCharsSpec s ++ ['\"'] else s) ∧
    escapeYAML "Detected: suspicious activity".toList
      = "\"Detected: suspicious activity\"".toList ∧
    escapeYAML "Suspicious login".toList = "Suspicious login".toList := by
  refine ⟨fun s => ?_, by decide, by decide⟩
  by_cases h : needsQuoteSpec s
  · rw [if_pos h]
    unfold escapeYAML
    rw [if_pos ((escapeYAML_cond s).mpr h)]
    dsimp only
    rw [escapeChars_eq]
  · rw [if_neg h]
    unfold escapeYAML
    rw [if_neg (fun hb => h ((escapeYAML_cond s).mp hb))]

/-- C5: platform normalization is case-insensitive (it depends on the
token only through its lower-casing) and maps darwin/macos to darwin,
linux to linux, posix to darwin,linux, windows to windows, anything
else to the empty string; an empty platform field is omitted from the
serialized record. -/
theorem normalizePlatform_mapping :
    (∀ s, normalizePlatform s = platformTableSpec (s.map Char.toLower)) ∧
    normalizePlatform "posix".toList = "darwin,linux".toList ∧
    normalizePlatform "PoSiX".toList = "darwin,linux".toList ∧
    normalizePlatform "amiga".toList = [] ∧
    (∀ (q : Query) (ov : Nat), writeQueryYAML { q with platform := [] } ov =
      yamlPrefixSpec { q with platform := [] } ++
        intervalPartSpec { q with platform := [] } ov ++
        loggingPartSpec { q with platform := [] }) :=
  ⟨fun _ => rfl, by decide, by decide, by decide,
   fun q ov => by
    rw [writeQueryYAML_decomp]
    have hp : platformPartSpec { q with platform := [] } = [] := rfl
    rw [hp, List.append_nil]⟩

/-- C10: `chainguard-all.yml` is written on every run that reaches the
writer, even for an empty record sequence (as an empty file), while for
an empty record sequence no per-category and no 5-minute document is
produced at all. -/
theorem writeFleetYAML_combined_unconditional :
    (∀ order qs,
      ("chainguard-all.yml".toList, yamlDocs qs 0) ∈ writeFleetYAML order qs) ∧
    (∀ order, writeFleetYAML order [] = [("chainguard-all.yml".toList, [])]) := by
  constructor
  · intro order qs
    unfold writeFleetYAML
    simp
  · intro order
    unfold writeFleetYAML
    simp [groupFor, yamlDocs]

theorem writeQueryYAML_override300 (q : Query) :
    writeQueryYAML q 300 = writeQueryYAML { q with interval := 300 } 0 := by
  unfold writeQueryYAML
  simp

theorem yamlDocs_override300 (l : List Query) :
    yamlDocs l 300 = yamlDocs (l.map (fun q => { q with interval := 300 })) 0 := by
  match l with
  | [] => rfl
  | [q] => simpa [yamlDocs] using writeQueryYAML_override300 q
  | q :: q2 :: qs =>
    have ih := yamlDocs_override300 (q2 :: qs)
    simp only [yamlDocs, List.map_cons] at ih ⊢
    rw [writeQueryYAML_override300 q, ih]

theorem catFileName_inj (c c' : List Char) (hc : c ∈ categories)
    (hc' : c' ∈ categories) (h : catFileName c' = catFileName c) : c' = c := by
  fin_cases hc <;> fin_cases hc' <;> revert h <;> decide

theorem catFileName_ne_fiveMin (c : List Char) (hc : c ∈ categories) :
    catFileName c ≠ "chainguard-detection-5min.yml".toList := by
  fin_cases hc <;> decide

theorem catFileName_ne_all (c : List Char) (hc : c ∈ categories) :
    catFileName c ≠ "chainguard-all.yml".toList := by
  fin_cases hc <;> decide

/-- C3: the content of every output document is a deterministic
function of the record sequence: two runs of the writer on the same
records — whatever iteration order the `groups` map presents its keys
in — produce the same set of (file name, file content) pairs, hence
byte-identical documents. -/
theorem writeFleetYAML_deterministic (o1 o2 : List (List Char)) (qs : List Query)
    (h1 : o1.Perm categories) (h2 : o2.Perm categories)
    (hq : ∀ q ∈ qs, q.category ∈ categories) (p : List Char × List Char) :
    p ∈ writeFleetYAML o1 qs ↔ p ∈ writeFleetYAML o2 qs := by
  have hmem : ∀ c : List Char, c ∈ o1 ↔ c ∈ o2 :=
    fun c => h1.mem_iff.trans h2.mem_iff.symm
  unfold writeFleetYAML
  simp only [List.mem_append, List.mem_filterMap]
  constructor
  · rintro ((⟨c, hc, hf⟩ | h) | h)
    · exact Or.inl (Or.inl ⟨c, (hmem c).mp hc, hf⟩)
    · exact Or.inl (Or.inr h)
    · exact Or.inr h
  · rintro ((⟨c, hc, hf⟩ | h) | h)
    · exact Or.inl (Or.inl ⟨c, (hmem c).mpr hc, hf⟩)
    · exact Or.inl (Or.inr h)
    · exact Or.inr h

theorem writeFleetYAML_deterministic_witness :
    ((["policy".toList, "detection".toList, "incident_response".toList] :
        List (List Char)).Perm categories ∧
      categories.Perm categories ∧
      (∀ q ∈ ([] : List Query), q.category ∈ categories)) ∧
    (("chainguard-all.yml".toList, ([] : List Char)) ∈
        writeFleetYAML ["policy".toList, "detection".toList, "incident_response".toList] [] ↔
      ("chainguard-all.yml".toList, ([] : List Char)) ∈ writeFleetYAML categories []) :=
  ⟨⟨by decide, by decide, by simp⟩,
    writeFleetYAML_deterministic
      ["policy".toList, "detection".toList, "incident_response".toList]
      categories [] (by decide) (by decide) (by simp) _⟩

/-- C7: the serialized record carries an interval field iff the
resolved interval (the override when one is specified, the record's own
interval otherwise) is positive; and when the detection group is
non-empty the extra 5-minute document contains the same detection
records with every interval forced to 300 seconds. -/
theorem writeQueryYAML_interval_rule :
    (∀ (q : Query) (ov : Nat), writeQueryYAML q ov =
      yamlPrefixSpec q ++ platformPartSpec q ++ intervalPartSpec q ov ++
        loggingPartSpec q) ∧
    (∀ qs : List Query, yamlDocs (groupFor qs "detection".toList) 300 =
      yamlDocs ((groupFor qs "detection".toList).map
        (fun q => { q with interval := 300 })) 0) ∧
    (∀ (order : List (List Char)) (qs : List Query),
      groupFor qs "detection".toList ≠ [] →
      ("chainguard-detection-5min.yml".toList,
        yamlDocs (groupFor qs "detection".toList) 300) ∈
          writeFleetYAML order qs) := by
  refine ⟨writeQueryYAML_decomp,
    fun qs => yamlDocs_override300 _,
    fun order qs h => ?_⟩
  unfold writeFleetYAML
  rw [if_neg h]
  simp

theorem writeQueryYAML_interval_rule_witness :
    groupFor [sampleDetectionQuery] "detection".toList ≠ [] ∧
    ("chainguard-detection-5min.yml".toList,
      yamlDocs (groupFor [sampleDetectionQuery] "detection".toList) 300) ∈
        writeFleetYAML categories [sampleDetectionQuery] :=
  ⟨by decide, writeQueryYAML_interval_rule.2.2 categories [sampleDetectionQuery]
    (by decide)⟩

/-- C8: for every category of the fixed three, the writer produces the
document `chainguard-<category>.yml` (underscores replaced by hyphens)
holding exactly that category's records in original order iff the
category's group is non-empty; an empty group produces no document of
that name at all. -/
theorem writeFleetYAML_per_category (order : List (List Char)) (qs : List Query)
    (c : List Char) (ho : order.Perm categories)
    (hq : ∀ q ∈ qs, q.category ∈ categories) (hc : c ∈ categories) :
    (groupFor qs c ≠ [] →
      (catFileName c, yamlDocs (groupFor qs c) 0) ∈ writeFleetYAML order qs) ∧
    (groupFor qs c = [] →
      ∀ content, (catFileName c, content) ∉ writeFleetYAML order qs) := by
  constructor
  · intro h
    have hco : c ∈ order := ho.mem_iff.mpr hc
    unfold writeFleetYAML
    simp only [List.mem_append, List.mem_filterMap]
    exact Or.inl (Or.inl ⟨c, hco, by rw [if_neg h]⟩)
  · intro h content hmem
    unfold writeFleetYAML at hmem
    simp only [List.mem_append, List.mem_filterMap] at hmem
    rcases hmem with ((⟨c', hc'o, hf⟩ | h5) | hall)
    · have hc' : c' ∈ categories := ho.mem_iff.mp hc'o
      by_cases hg : groupFor qs c' = []
      · rw [if_pos hg] at hf; exact Option.noConfusion hf
      · rw [if_neg hg] at hf
        have : c' = c := catFileName_inj c c' hc hc'
          (congrArg Prod.fst (Option.some.inj hf))
        exact hg (this ▸ h)
    · by_cases hd : groupFor qs "detection".toList = []
      · rw [if_pos hd] at h5; exact absurd h5 (List.not_mem_nil _)
      · rw [if_neg hd] at h5
        have := congrArg Prod.fst (List.mem_singleton.mp h5)
        exact catFileName_ne_fiveMin c hc this
    · have := congrArg Prod.fst (List.mem_singleton.mp hall)
      exact catFileName_ne_all c hc this

theorem writeFleetYAML_per_category_witness :
    (categories.Perm categories ∧
      (∀ q ∈ [sampleDetectionQuery], q.category ∈ categories) ∧
      "policy".toList ∈ categories ∧
      groupFor [sampleDetectionQuery] "policy".toList = []) ∧
    (catFileName "policy".toList, ([] : List Char)) ∉
      writeFleetYAML categories [sampleDetectionQuery] :=
  ⟨⟨by decide, by decide, by decide, by decide⟩,
    (writeFleetYAML_per_category categories [sampleDetectionQuery]
      "policy".toList (by decide) (by decide) (by decide)).2 (by decide) []⟩

theorem goTitleAux_length (prev : Char) (s : List Char) :
    (goTitleAux prev s).length = s.length := by
  induction s generalizing prev with
  | nil => rfl
  | cons c cs ih => simp [goTitleAux, ih]

theorem goTitleAux_getD (s : List Char) (prev : Char) (i : Nat) (d : Char)
    (h : i < s.length) :
    (goTitleAux prev s).getD i d =
      if (i = 0 ∧ isSeparatorGo prev = true) ∨
         (0 < i ∧ isSeparatorGo (s.getD (i - 1) d) = true) then
        (s.getD i d).toUpper
      else s.getD i d := by
  induction s generalizing prev i with
  | nil => simp at h
  | cons c cs ih =>
    cases i with
    | zero =>
      simp only [goTitleAux, List.getD_cons_zero]
      by_cases hs : isSeparatorGo prev = true <;> simp [hs]
    | succ j =>
      have hj : j < cs.length := by simpa using h
      simp only [goTitleAux, List.getD_cons_succ]
      rw [ih c j hj]
      cases j with
      | zero => simp
      | succ k => simp [Nat.succ_sub_one]

/-- C9: name generation is the pure pipeline: strip the `.sql` suffix,
replace `-` and `_` with spaces, title-case (upper-case exactly the
characters that start a word, i.e. follow a separator or stand first),
and prefix with `[category]` or `[category/subcategory]`; on
`unusual-child.sql` under detection/execution it yields
`[detection/execution] Unusual Child`. -/
theorem generateName_spec :
    (∀ filename category subcategory : List Char,
      generateName filename category subcategory =
        (if subcategory ≠ [] then
          "[".toList ++ category ++ "/".toList ++ subcategory ++ "] ".toList
        else "[".toList ++ category ++ "] ".toList) ++
        goTitle (replaceAll1 '_' [' '] (replaceAll1 '-' [' ']
          (trimSuffixL ".sql".toList filename)))) ∧
    (∀ s : List Char, (goTitle s).length = s.length) ∧
    (∀ (s : List Char) (i : Nat) (d : Char), i < s.length →
      (goTitle s).getD i d =
        if i = 0 ∨ isSeparatorGo (s.getD (i - 1) d) = true then
          (s.getD i d).toUpper
        else s.getD i d) ∧
    generateName "unusual-child.sql".toList "detection".toList "execution".toList
      = "[detection/execution] Unusual Child".toList := by
  refine ⟨fun f c s => ?_, fun s => goTitleAux_length ' ' s,
    fun s i d h => ?_, by decide⟩
  · unfold generateName goTitle
    by_cases hs : s ≠ [] <;> simp [hs, List.append_assoc]
  · rw [goTitle, goTitleAux_getD s ' ' i d h]
    rcases Nat.eq_zero_or_pos i with rfl | hi
    · simp [isSeparatorGo]
    · have h0 : ¬ i = 0 := by omega
      simp [h0, hi]

theorem generateName_spec_witness :
    3 < ("ab cd".toList : List Char).length ∧
    (goTitle "ab cd".toList).getD 3 'x' =
      (if 3 = 0 ∨ isSeparatorGo (("ab cd".toList).getD (3 - 1) 'x') = true then
        (("ab cd".toList).getD 3 'x').toUpper
      else ("ab cd".toList).getD 3 'x') :=
  ⟨by decide, generateName_spec.2.2.1 "ab cd".toList 3 'x' (by decide)⟩

theorem scanLine_not_header (st : ScanState) (l : List Char)
    (h : st.inHeader = false) :
    scanLine st l = { st with sqlLines := st.sqlLines ++ [l] } := by
  unfold scanLine
  rw [if_neg (fun hc => by rw [h] at hc; exact absurd hc.1 (by simp))]
  dsimp only
  split
  · cases st
    simp_all
  · rfl

theorem scanLine_blank (st : ScanState) (l : List Char)
    (h2 : "--".toList.isPrefixOf l = false) (h3 : goTrimSpace l = []) :
    scanLine st l = { st with sqlLines := st.sqlLines ++ [l] } := by
  unfold scanLine
  rw [if_neg (fun hc => by rw [h2] at hc; exact absurd hc.2 (by simp))]
  dsimp only
  rw [if_neg (fun hc => hc.1 h3)]

theorem scanLine_flip (st : ScanState) (l : List Char)
    (h2 : "--".toList.isPrefixOf l = false) (h3 : goTrimSpace l ≠ []) :
    scanLine st l =
      { st with inHeader := false, sqlLines := st.sqlLines ++ [l] } := by
  unfold scanLine
  rw [if_neg (fun hc => by rw [h2] at hc; exact absurd hc.2 (by simp))]
  dsimp only
  rw [if_pos ⟨h3, h2⟩]

theorem scanLine_comment (st : ScanState) (l : List Char)
    (h1 : st.inHeader = true) (h2 : "--".toList.isPrefixOf l = true) :
    (scanLine st l).sqlLines = st.sqlLines ∧
    (scanLine st l).inHeader = true ∧
    (scanLine st l).description =
      (if st.firstComment = true then (descCandidateVal l).getD st.description
       else st.description) ∧
    (scanLine st l).firstComment =
      (st.firstComment && (descCandidateVal l).isNone) := by
  unfold scanLine
  rw [if_pos ⟨h1, h2⟩]
  cases htag : reCapturePlus "tags".toList l with
  | some cap =>
    have hdir : isDirective l = true := by
      unfold isDirective
      rw [htag]
      simp
    have hdc : descCandidateVal l = none := by
      unfold descCandidateVal
      rw [if_neg (fun hc => absurd hc.2 (by simp [hdir]))]
    cases hfc : st.firstComment <;> simp [hdc, h1, hfc]
  | none =>
    cases hplat : reCapturePlus "platform".toList l with
    | some cap =>
      have hdir : isDirective l = true := by
        unfold isDirective
        rw [htag, hplat]
        simp
      have hdc : descCandidateVal l = none := by
        unfold descCandidateVal
        rw [if_neg (fun hc => absurd hc.2 (by simp [hdir]))]
      cases hfc : st.firstComment <;> simp [hdc, h1, hfc]
    | none =>
      cases hint : reCaptureDigits "interval".toList l with
      | some cap =>
        have hdir : isDirective l = true := by
          unfold isDirective
          rw [htag, hplat, hint]
          simp
        have hdc : descCandidateVal l = none := by
          unfold descCandidateVal
          rw [if_neg (fun hc => absurd hc.2 (by simp [hdir]))]
        cases hfc : st.firstComment <;> simp [hdc, h1, hfc]
      | none =>
        have hdir : isDirective l = false := by
          unfold isDirective
          rw [htag, hplat, hint]
          rfl
        have hdc : descCandidateVal l =
            (if goTrimSpace (l.drop 2) ≠ [] ∧
              "references:".toList.isPrefixOf (goTrimSpace (l.drop 2)) = false ∧
              "false positives:".toList.isPrefixOf (goTrimSpace (l.drop 2)) = false
             then some (goTrimSpace (l.drop 2)) else none) := by
          unfold descCandidateVal
          rw [if_pos ⟨h2, hdir⟩]
        dsimp only
        by_cases hfc : st.firstComment = true
        · by_cases hcond : goTrimSpace (l.drop 2) ≠ [] ∧
            "references:".toList.isPrefixOf (goTrimSpace (l.drop 2)) = false ∧
            "false positives:".toList.isPrefixOf (goTrimSpace (l.drop 2)) = false
          · rw [if_pos ⟨hfc, hcond.1, hcond.2.1, hcond.2.2⟩]
            rw [if_pos hcond] at hdc
            simp [hdc, h1, hfc]
          · rw [if_neg (fun hc => hcond ⟨hc.2.1, hc.2.2.1, hc.2.2.2⟩)]
            rw [if_neg hcond] at hdc
            simp [hdc, h1, hfc]
        · rw [if_neg (fun hc => hfc hc.1)]
          have hfc' : st.firstComment = false := by
            cases hsc : st.firstComment
            · rfl
            · exact absurd hsc hfc
          simp [h1, hfc']

theorem head?_mem {α : Type} {l : List α} {a : α} (h : l.head? = some a) :
    a ∈ l := by
  cases l with
  | nil => exact Option.noConfusion h
  | cons b bs => rw [List.head?_cons, Option.some.injEq] at h; exact h ▸ List.mem_cons_self b bs

theorem descCandidateVal_ne_nil (l d : List Char)
    (h : descCandidateVal l = some d) : d ≠ [] := by
  unfold descCandidateVal at h
  dsimp only at h
  split at h
  · split at h
    · rename_i hcond
      rw [Option.some.injEq] at h
      exact h ▸ hcond.1
    · exact Option.noConfusion h
  · exact Option.noConfusion h

theorem foldl_scanLine_post (lines : List (List Char)) (st : ScanState)
    (h : st.inHeader = false) :
    lines.foldl scanLine st = { st with sqlLines := st.sqlLines ++ lines } := by
  induction lines generalizing st with
  | nil => cases st; simp
  | cons l ls ih =>
    rw [List.foldl_cons, scanLine_not_header st l h]
    rw [ih { st with sqlLines := st.sqlLines ++ [l] } h]
    simp

theorem foldl_scanLine_sqlLines (lines : List (List Char)) (st : ScanState)
    (h : st.inHeader = true) :
    (lines.foldl scanLine st).sqlLines =
      st.sqlLines ++ (lines.takeWhile headerP).filter
        (fun l => !("--".toList.isPrefixOf l)) ++ lines.dropWhile headerP := by
  induction lines generalizing st with
  | nil => simp
  | cons l ls ih =>
    rw [List.foldl_cons]
    cases hpre : "--".toList.isPrefixOf l with
    | true =>
      have hpre' : ['-', '-'].isPrefixOf l = true := hpre
      have hh : headerP l = true := by unfold headerP; rw [hpre]; rfl
      obtain ⟨hsql, hih, -, -⟩ := scanLine_comment st l h hpre
      rw [List.takeWhile_cons_of_pos hh, List.dropWhile_cons_of_pos hh,
        ih (scanLine st l) hih, hsql]
      simp [List.filter_cons, hpre', List.append_assoc]
    | false =>
      have hpre' : ['-', '-'].isPrefixOf l = false := hpre
      cases hbl : (goTrimSpace l).isEmpty with
      | true =>
        have hh : headerP l = true := by unfold headerP; rw [hpre, hbl]; rfl
        have h3 : goTrimSpace l = [] := by simpa using hbl
        rw [scanLine_blank st l hpre h3]
        rw [List.takeWhile_cons_of_pos hh, List.dropWhile_cons_of_pos hh,
          ih { st with sqlLines := st.sqlLines ++ [l] } h]
        simp [List.filter_cons, hpre', List.append_assoc]
      | false =>
        have hh : headerP l = false := by unfold headerP; rw [hpre, hbl]; rfl
        have h3 : goTrimSpace l ≠ [] := by simpa using hbl
        rw [scanLine_flip st l hpre h3]
        rw [List.takeWhile_cons_of_neg (by simp [hh]),
          List.dropWhile_cons_of_neg (by simp [hh])]
        rw [foldl_scanLine_post ls _ rfl]
        simp

theorem foldl_scanLine_description (lines : List (List Char)) (st : ScanState)
    (h : st.inHeader = true) :
    (lines.foldl scanLine st).description =
      if st.firstComment = true then
        (((lines.takeWhile headerP).filterMap descCandidateVal).head?).getD
          st.description
      else st.description := by
  induction lines generalizing st with
  | nil => cases hfc : st.firstComment <;> simp [hfc]
  | cons l ls ih =>
    rw [List.foldl_cons]
    cases hpre : "--".toList.isPrefixOf l with
    | true =>
      have hh : headerP l = true := by unfold headerP; rw [hpre]; rfl
      obtain ⟨-, hih, hdesc, hfc'⟩ := scanLine_comment st l h hpre
      rw [ih (scanLine st l) hih, List.takeWhile_cons_of_pos hh]
      cases hfc : st.firstComment with
      | false =>
        rw [hfc] at hdesc hfc'
        rw [if_neg (by rw [hfc']; simp), if_neg (by simp)]
        rw [hdesc, if_neg (by simp)]
      | true =>
        rw [hfc] at hdesc hfc'
        rw [if_pos rfl]
        cases hdc : descCandidateVal l with
        | none =>
          rw [hdc] at hdesc hfc'
          simp only [Option.getD_none, Option.isNone_none, Bool.and_true] at hdesc hfc'
          rw [if_pos hfc', List.filterMap_cons_none hdc]
          simp only [if_true] at hdesc
          rw [hdesc]
        | some d =>
          rw [hdc] at hdesc hfc'
          simp only [Option.getD_some, Option.isNone_some, Bool.and_false] at hdesc hfc'
          rw [if_neg (by rw [hfc']; simp)]
          simp only [if_true] at hdesc
          rw [hdesc, List.filterMap_cons_some hdc]
          simp
    | false =>
      cases hbl : (goTrimSpace l).isEmpty with
      | true =>
        have hh : headerP l = true := by unfold headerP; rw [hpre, hbl]; rfl
        have h3 : goTrimSpace l = [] := by simpa using hbl
        have hdc : descCandidateVal l = none := by
          unfold descCandidateVal
          rw [if_neg (fun hc => by rw [hpre] at hc; exact absurd hc.1 (by simp))]
        rw [scanLine_blank st l hpre h3,
          ih { st with sqlLines := st.sqlLines ++ [l] } h,
          List.takeWhile_cons_of_pos hh, List.filterMap_cons_none hdc]
      | false =>
        have hh : headerP l = false := by unfold headerP; rw [hpre, hbl]; rfl
        have h3 : goTrimSpace l ≠ [] := by simpa using hbl
        rw [scanLine_flip st l hpre h3, foldl_scanLine_post ls _ rfl,
          List.takeWhile_cons_of_neg (by simp [hh])]
        cases hfc : st.firstComment <;> simp

theorem parseQueryLines_description (lines : List (List Char))
    (name category subcategory : List Char) (level : Nat) :
    (parseQueryLines lines name category subcategory level).description =
      descriptionSpec lines name := by
  unfold parseQueryLines descriptionSpec
  dsimp only
  rw [foldl_scanLine_description lines initState rfl]
  simp only [show initState.firstComment = true from rfl,
    show initState.description = [] from rfl, eq_self_iff_true, if_true]
  cases hh : ((lines.takeWhile headerP).filterMap descCandidateVal).head? with
  | none => simp
  | some d =>
    have hd : d ≠ [] := by
      obtain ⟨l2, -, hl2⟩ := List.mem_filterMap.mp (head?_mem hh)
      exact descCandidateVal_ne_nil l2 d hl2
    simp [hd]

theorem parseQueryLines_body (lines : List (List Char))
    (name category subcategory : List Char) (level : Nat) :
    (parseQueryLines lines name category subcategory level).query =
      bodySpec lines := by
  unfold parseQueryLines bodySpec
  dsimp only
  rw [foldl_scanLine_sqlLines lines initState rfl]
  simp only [show initState.sqlLines = [] from rfl, List.nil_append]

/-- C6: the record's description is the first header comment line whose
stripped content is non-empty, not a directive, and does not begin with
`references:` or `false positives:`; later candidates are ignored (the
first-match rule is part of `descriptionSpec`), and when no candidate
exists the description is the generated name. -/
theorem parseQuery_description_rule (lines relParts : List (List Char))
    (category : List Char) :
    (parseQuery lines relParts category).description =
      descriptionSpec lines (parseQuery lines relParts category).name := by
  unfold parseQuery
  cases hm : levelMatch ((relParts.getLast?).getD []) with
  | none =>
    simp only [hm]
    exact parseQueryLines_description ..
  | some p =>
    cases p with
    | mk lv base =>
      simp only [hm]
      exact parseQueryLines_description ..

/-- C1 (amended): every line of the file is appended to the body
unless it is both still in header mode and a comment line — whether or
not it was consumed as a directive or description; equivalently the
body consists of the header region's non-comment (blank) lines followed
by everything from the first non-comment non-blank line onward, with
leading blank lines dropped and the joined text trimmed. -/
theorem parseQuery_body_rule (lines relParts : List (List Char))
    (category : List Char) :
    (parseQuery lines relParts category).query = bodySpec lines := by
  unfold parseQuery
  cases hm : levelMatch ((relParts.getLast?).getD []) with
  | none =>
    simp only [hm]
    exact parseQueryLines_body ..
  | some p =>
    cases p with
    | mk lv base =>
      simp only [hm]
      exact parseQueryLines_body ..

/-- C1 counterexample: on the two-line file `-- references: example.com`
/ `SELECT 1;` the claim's literal rule — a line is dropped from the body
only when it was consumed as a directive or as the description — keeps
the `references:` header comment (it is consumed as neither), but the
program's body is `SELECT 1;` alone: unconsumed header comments are
stripped too. -/
theorem parseQuery_body_claim_counterexample :
    claimC1Body ["-- references: example.com".toList, "SELECT 1;".toList] ≠
      (parseQueryLines ["-- references: example.com".toList, "SELECT 1;".toList]
        "n".toList "detection".toList [] 0).query ∧
    (parseQueryLines ["-- references: example.com".toList, "SELECT 1;".toList]
      "n".toList "detection".toList [] 0).query = "SELECT 1;".toList ∧
    claimC1Body ["-- references: example.com".toList, "SELECT 1;".toList] =
      "-- references: example.com\nSELECT 1;".toList := by decide

theorem reSpace_eq_false_of_goSpace (c : Char) (h : goSpace c = false) :
    reSpace c = false := by
  cases hr : reSpace c
  · rfl
  · exfalso
    unfold reSpace at hr
    simp only [Bool.or_eq_true, beq_iff_eq, or_assoc] at hr
    rcases hr with rfl | rfl | rfl | rfl | rfl <;> exact absurd h (by decide)

theorem dropWhile_eq_self_of (p : Char → Bool) (s : List Char)
    (h : ∀ c ∈ s, p c = false) : s.dropWhile p = s := by
  cases s with
  | nil => rfl
  | cons c cs =>
    rw [List.dropWhile_cons_of_neg (by simp [h c (List.mem_cons_self c cs)])]

theorem goTrimSpace_eq_self (s : List Char) (h : ∀ c ∈ s, goSpace c = false) :
    goTrimSpace s = s := by
  unfold goTrimSpace
  rw [dropWhile_eq_self_of goSpace s h,
    dropWhile_eq_self_of goSpace s.reverse
      (fun c hc => h c (List.mem_reverse.mp hc)),
    List.reverse_reverse]

theorem goTrimSpace_cons_space (s : List Char) :
    goTrimSpace (' ' :: s) = goTrimSpace s := by
  unfold goTrimSpace
  rw [List.dropWhile_cons_of_pos (by decide)]

theorem mem_joinSp (c : Char) (ts : List (List Char)) (h : c ∈ joinSp ts) :
    c = ' ' ∨ ∃ t ∈ ts, c ∈ t := by
  match ts with
  | [] => exact absurd h (by simp [joinSp])
  | [t] => exact Or.inr ⟨t, by simp, by simpa [joinSp] using h⟩
  | t :: t2 :: ts2 =>
    rw [show joinSp (t :: t2 :: ts2) = t ++ ' ' :: joinSp (t2 :: ts2) from rfl] at h
    rcases List.mem_append.mp h with h1 | h2
    · exact Or.inr ⟨t, by simp, h1⟩
    · rcases List.mem_cons.mp h2 with rfl | h3
      · exact Or.inl rfl
      · rcases mem_joinSp c (t2 :: ts2) h3 with h4 | ⟨t2', ht2', hc2⟩
        · exact Or.inl h4
        · exact Or.inr ⟨t2', List.mem_cons_of_mem _ ht2', hc2⟩

theorem joinSp_structure (ts : List (List Char)) (h1 : ts ≠ [])
    (h2 : ∀ t ∈ ts, t ≠ [] ∧ ∀ c ∈ t, goSpace c = false) :
    ∃ c0 rest, joinSp ts = c0 :: rest ∧ reSpace c0 = false ∧
      (joinSp ts).contains '\n' = false := by
  obtain ⟨t0, ts2, rfl⟩ := List.exists_cons_of_ne_nil h1
  obtain ⟨c0, t0r, rfl⟩ := List.exists_cons_of_ne_nil (h2 t0 (by simp)).1
  have hc0 : goSpace c0 = false :=
    (h2 (c0 :: t0r) (by simp)).2 c0 (by simp)
  have hnl : (joinSp ((c0 :: t0r) :: ts2)).contains '\n' = false := by
    cases hcn : (joinSp ((c0 :: t0r) :: ts2)).contains '\n'
    · rfl
    · exfalso
      have hm := List.elem_iff.mp hcn
      rcases mem_joinSp '\n' _ hm with h3 | ⟨t2, ht2, hc2⟩
      · exact absurd h3 (by decide)
      · exact absurd ((h2 t2 ht2).2 '\n' hc2) (by decide)
  cases ts2 with
  | nil =>
    exact ⟨c0, t0r, rfl, reSpace_eq_false_of_goSpace c0 hc0, hnl⟩
  | cons t1 ts3 =>
    exact ⟨c0, t0r ++ ' ' :: joinSp (t1 :: ts3), rfl,
      reSpace_eq_false_of_goSpace c0 hc0, hnl⟩

theorem fieldsAux_cons (acc : List Char) (c : Char) (cs : List Char) :
    fieldsAux acc (c :: cs) =
      if goSpace c = true then
        (if acc = [] then fieldsAux [] cs else acc.reverse :: fieldsAux [] cs)
      else fieldsAux (c :: acc) cs := rfl

theorem fieldsAux_word (w : List Char) (acc rest : List Char)
    (hw : ∀ c ∈ w, goSpace c = false) :
    fieldsAux acc (w ++ rest) = fieldsAux (w.reverse ++ acc) rest := by
  induction w generalizing acc with
  | nil => simp
  | cons c w2 ih =>
    have hc : goSpace c = false := hw c (List.mem_cons_self c w2)
    rw [List.cons_append, fieldsAux_cons, hc, if_neg (by simp)]
    rw [ih (c :: acc) (fun d hd => hw d (List.mem_cons_of_mem c hd))]
    simp

theorem fields_joinSp (ts : List (List Char)) (h1 : ts ≠ [])
    (h2 : ∀ t ∈ ts, t ≠ [] ∧ ∀ c ∈ t, goSpace c = false) :
    fields (joinSp ts) = ts := by
  match ts with
  | [t] =>
    have ht := h2 t (by simp)
    have hw := fieldsAux_word t [] [] ht.2
    rw [List.append_nil, List.append_nil] at hw
    unfold fields
    rw [show joinSp [t] = t from rfl, hw]
    rw [show fieldsAux t.reverse [] =
      (if t.reverse = [] then [] else [t.reverse.reverse]) from rfl]
    rw [if_neg (by simp [ht.1]), List.reverse_reverse]
  | t :: t2 :: ts2 =>
    have ht := h2 t (by simp)
    have hw := fieldsAux_word t [] (' ' :: joinSp (t2 :: ts2)) ht.2
    rw [List.append_nil] at hw
    unfold fields
    rw [show joinSp (t :: t2 :: ts2) = t ++ ' ' :: joinSp (t2 :: ts2) from rfl, hw,
      fieldsAux_cons, if_pos (by decide), if_neg (by simp [ht.1]),
      List.reverse_reverse]
    have ihr := fields_joinSp (t2 :: ts2) (by simp)
      (fun t3 h3 => h2 t3 (List.mem_cons_of_mem _ h3))
    unfold fields at ihr
    rw [ihr]

theorem digitChar_isDigit (n : Nat) (h : n < 10) :
    (Nat.digitChar n).isDigit = true := by
  interval_cases n <;> decide

theorem digitChar_val (n : Nat) (h : n < 10) :
    (Nat.digitChar n).toNat - 48 = n := by
  interval_cases n <;> decide

theorem natToDigitsAux_ne_nil (f n : Nat) (h : n < f) :
    natToDigitsAux f n ≠ [] := by
  match f with
  | 0 => omega
  | f2 + 1 =>
    unfold natToDigitsAux
    by_cases h10 : n < 10
    · simp [h10]
    · simp [h10]

theorem natToDigitsAux_digits (f n : Nat) (h : n < f) :
    ∀ c ∈ natToDigitsAux f n, c.isDigit = true := by
  induction f generalizing n with
  | zero => omega
  | succ f2 ih =>
    intro c hc
    unfold natToDigitsAux at hc
    by_cases h10 : n < 10
    · rw [if_pos h10] at hc
      simp only [List.mem_singleton] at hc
      exact hc ▸ digitChar_isDigit n h10
    · rw [if_neg h10] at hc
      rcases List.mem_append.mp hc with hc1 | hc2
      · have hlt : n / 10 < f2 := by
          have := Nat.div_lt_self (show 0 < n by omega) (show 1 < 10 by omega)
          omega
        exact ih (n / 10) hlt c hc1
      · simp only [List.mem_singleton] at hc2
        exact hc2 ▸ digitChar_isDigit (n % 10) (Nat.mod_lt n (by omega))

theorem digitsToNat_append1 (xs : List Char) (c : Char) :
    digitsToNat (xs ++ [c]) = 10 * digitsToNat xs + (c.toNat - 48) := by
  unfold digitsToNat
  rw [List.foldl_append]
  rfl

theorem digitsToNat_natToDigitsAux (f n : Nat) (h : n < f) :
    digitsToNat (natToDigitsAux f n) = n := by
  induction f generalizing n with
  | zero => omega
  | succ f2 ih =>
    unfold natToDigitsAux
    by_cases h10 : n < 10
    · rw [if_pos h10]
      show digitsToNat [Nat.digitChar n] = n
      unfold digitsToNat
      simp only [List.foldl_cons, List.foldl_nil]
      rw [Nat.mul_zero, Nat.zero_add, digitChar_val n h10]
    · rw [if_neg h10, digitsToNat_append1]
      have hlt : n / 10 < f2 := by
        have := Nat.div_lt_self (show 0 < n by omega) (show 1 < 10 by omega)
        omega
      rw [ih (n / 10) hlt, digitChar_val (n % 10) (Nat.mod_lt n (by omega))]
      omega

theorem digitsToNat_natToDigits (n : Nat) : digitsToNat (natToDigits n) = n :=
  digitsToNat_natToDigitsAux (n + 1) n (Nat.lt_succ_self n)

theorem natToDigits_ne_nil (n : Nat) : natToDigits n ≠ [] :=
  natToDigitsAux_ne_nil (n + 1) n (Nat.lt_succ_self n)

theorem natToDigits_digits (n : Nat) :
    ∀ c ∈ natToDigits n, c.isDigit = true :=
  natToDigitsAux_digits (n + 1) n (Nat.lt_succ_self n)

theorem isDigit_not_reSpace (c : Char) (h : c.isDigit = true) :
    reSpace c = false := by
  cases hr : reSpace c
  · rfl
  · exfalso
    unfold reSpace at hr
    simp only [Bool.or_eq_true, beq_iff_eq, or_assoc] at hr
    rcases hr with rfl | rfl | rfl | rfl | rfl <;> exact absurd h (by decide)

theorem contains_nl_eq_false (s : List Char) (h : ∀ c ∈ s, goSpace c = false) :
    s.contains '\n' = false := by
  cases hcn : s.contains '\n'
  · rfl
  · exact absurd (h '\n' (List.elem_iff.mp hcn)) (by decide)

theorem isDirective_decomp (l : List Char) (h : isDirective l = false) :
    reCapturePlus "tags".toList l = none ∧
    reCapturePlus "platform".toList l = none ∧
    reCaptureDigits "interval".toList l = none := by
  unfold isDirective at h
  cases ht : reCapturePlus "tags".toList l with
  | some c => rw [ht] at h; simp at h
  | none =>
    cases hp : reCapturePlus "platform".toList l with
    | some c => rw [ht, hp] at h; simp at h
    | none =>
      cases hi : reCaptureDigits "interval".toList l with
      | some c => rw [ht, hp, hi] at h; simp at h
      | none => exact ⟨rfl, rfl, rfl⟩

theorem reCapturePlus_tags_line (c0 : Char) (rest : List Char)
    (hc0 : reSpace c0 = false)
    (hnl : (c0 :: rest).contains '\n' = false) :
    reCapturePlus "tags".toList ("-- tags: ".toList ++ (c0 :: rest))
      = some (c0 :: rest) := by
  show reCapturePlus ['t', 'a', 'g', 's']
    ('-' :: '-' :: ' ' :: 't' :: 'a' :: 'g' :: 's' :: ':' :: ' ' :: c0 :: rest) = _
  unfold reCapturePlus
  have hmem : ¬ ('\n' ∈ c0 :: rest) := by
    intro hm
    simp [List.contains, List.elem_iff, hm] at hnl
  simp +decide [List.dropWhile_cons, hc0]
  constructor
  · intro h
    exact hmem (List.mem_cons.mpr (Or.inl h))
  · intro h
    exact hmem (List.mem_cons.mpr (Or.inr h))

theorem reCapturePlus_platform_line (c0 : Char) (rest : List Char)
    (hc0 : reSpace c0 = false)
    (hnl : (c0 :: rest).contains '\n' = false) :
    reCapturePlus "platform".toList ("-- platform: ".toList ++ (c0 :: rest))
      = some (c0 :: rest) := by
  show reCapturePlus ['p', 'l', 'a', 't', 'f', 'o', 'r', 'm']
    ('-' :: '-' :: ' ' :: 'p' :: 'l' :: 'a' :: 't' :: 'f' :: 'o' :: 'r' :: 'm' ::
      ':' :: ' ' :: c0 :: rest) = _
  unfold reCapturePlus
  have hmem : ¬ ('\n' ∈ c0 :: rest) := by
    intro hm
    simp [List.contains, List.elem_iff, hm] at hnl
  simp +decide [List.dropWhile_cons, hc0]
  constructor
  · intro h
    exact hmem (List.mem_cons.mpr (Or.inl h))
  · intro h
    exact hmem (List.mem_cons.mpr (Or.inr h))

theorem reCaptureDigits_interval_line (c0 : Char) (rest : List Char)
    (hc0 : reSpace c0 = false)
    (hdig : (c0 :: rest).all Char.isDigit = true) :
    reCaptureDigits "interval".toList ("-- interval: ".toList ++ (c0 :: rest))
      = some (c0 :: rest) := by
  show reCaptureDigits ['i', 'n', 't', 'e', 'r', 'v', 'a', 'l']
    ('-' :: '-' :: ' ' :: 'i' :: 'n' :: 't' :: 'e' :: 'r' :: 'v' :: 'a' :: 'l' ::
      ':' :: ' ' :: c0 :: rest) = _
  unfold reCaptureDigits
  simp +decide [List.dropWhile_cons, hc0, hdig]

theorem scanLine_tags_directive (st : ScanState) (l : List Char)
    (h1 : st.inHeader = true) (hpre : "--".toList.isPrefixOf l = true)
    (cap : List Char) (hcap : reCapturePlus "tags".toList l = some cap) :
    scanLine st l = { st with tags := fields cap } := by
  unfold scanLine
  rw [if_pos ⟨h1, hpre⟩, hcap]

theorem scanLine_platform_directive (st : ScanState) (l : List Char)
    (h1 : st.inHeader = true) (hpre : "--".toList.isPrefixOf l = true)
    (htags : reCapturePlus "tags".toList l = none)
    (cap : List Char) (hcap : reCapturePlus "platform".toList l = some cap) :
    scanLine st l =
      { st with platform := normalizePlatform (goTrimSpace cap) } := by
  unfold scanLine
  rw [if_pos ⟨h1, hpre⟩, htags, hcap]

theorem scanLine_interval_directive (st : ScanState) (l : List Char)
    (h1 : st.inHeader = true) (hpre : "--".toList.isPrefixOf l = true)
    (htags : reCapturePlus "tags".toList l = none)
    (hplat : reCapturePlus "platform".toList l = none)
    (cap : List Char) (hcap : reCaptureDigits "interval".toList l = some cap) :
    scanLine st l = { st with interval := sscanfNat st.interval cap } := by
  unfold scanLine
  rw [if_pos ⟨h1, hpre⟩, htags, hplat, hcap]

theorem scanLine_desc_line (st : ScanState) (l : List Char)
    (h1 : st.inHeader = true) (hpre : "--".toList.isPrefixOf l = true)
    (htags : reCapturePlus "tags".toList l = none)
    (hplat : reCapturePlus "platform".toList l = none)
    (hint : reCaptureDigits "interval".toList l = none)
    (hfc : st.firstComment = true)
    (hne : goTrimSpace (l.drop 2) ≠ [])
    (hrefs : "references:".toList.isPrefixOf (goTrimSpace (l.drop 2)) = false)
    (hfp : "false positives:".toList.isPrefixOf (goTrimSpace (l.drop 2)) = false) :
    scanLine st l =
      { st with description := goTrimSpace (l.drop 2), firstComment := false } := by
  unfold scanLine
  rw [if_pos ⟨h1, hpre⟩, htags, hplat, hint]
  dsimp only
  rw [if_pos ⟨hfc, hne, hrefs, hfp⟩]

/-- C2 (amended): re-parsing a synthetic file whose header holds a
description line and tags/platform/interval directive lines reproduces
the tags, the interval (any value that fits the 64-bit `int` the
program scans into) and the description exactly, and reproduces the
platform as the normalization of the written token (hence exactly when
the token is `darwin`, `linux` or `windows`, the fixed points of
`normalizePlatform`). -/
theorem parseQuery_metadata_roundtrip
    (desc plat : List Char) (tags : List (List Char)) (n : Nat)
    (name category subcategory : List Char) (level : Nat)
    (hdesc1 : goTrimSpace desc = desc) (hdesc2 : desc ≠ [])
    (hdesc3 : "references:".toList.isPrefixOf desc = false)
    (hdesc4 : "false positives:".toList.isPrefixOf desc = false)
    (hdesc5 : isDirective ('-' :: '-' :: ' ' :: desc) = false)
    (htags1 : tags ≠ [])
    (htags2 : ∀ t ∈ tags, t ≠ [] ∧ ∀ c ∈ t, goSpace c = false)
    (hplat1 : plat ≠ []) (hplat2 : ∀ c ∈ plat, goSpace c = false)
    (hn : n < 2 ^ 63) :
    (let q := parseQueryLines
      ['-' :: '-' :: ' ' :: desc,
       "-- tags: ".toList ++ joinSp tags,
       "-- platform: ".toList ++ plat,
       "-- interval: ".toList ++ natToDigits n,
       "SELECT 1;".toList] name category subcategory level
     q.description = desc ∧ q.tags = tags ∧
       q.platform = normalizePlatform plat ∧ q.interval = n) := by
  obtain ⟨ht0, hp0, hi0⟩ := isDirective_decomp _ hdesc5
  obtain ⟨c0, restT, hXT, hc0, hnlT⟩ := joinSp_structure tags htags1 htags2
  obtain ⟨d0, restP, hXP⟩ := List.exists_cons_of_ne_nil hplat1
  have hd0 : reSpace d0 = false :=
    reSpace_eq_false_of_goSpace d0 (hplat2 d0 (by rw [hXP]; simp))
  have hnlP : plat.contains '\n' = false := contains_nl_eq_false plat hplat2
  obtain ⟨g0, restN, hXN⟩ := List.exists_cons_of_ne_nil (natToDigits_ne_nil n)
  have hg0 : reSpace g0 = false :=
    isDigit_not_reSpace g0 (natToDigits_digits n g0 (by rw [hXN]; simp))
  have hdigN : (natToDigits n).all Char.isDigit = true :=
    List.all_eq_true.mpr (natToDigits_digits n)
  have htrim : goTrimSpace (('-' :: '-' :: ' ' :: desc).drop 2) = desc := by
    show goTrimSpace (' ' :: desc) = desc
    rw [goTrimSpace_cons_space, hdesc1]
  have e1 : scanLine initState ('-' :: '-' :: ' ' :: desc) =
      { initState with description := desc, firstComment := false } := by
    have := scanLine_desc_line initState ('-' :: '-' :: ' ' :: desc) rfl rfl
      ht0 hp0 hi0 rfl (by rw [htrim]; exact hdesc2) (by rw [htrim]; exact hdesc3)
      (by rw [htrim]; exact hdesc4)
    rw [htrim] at this
    exact this
  have hcapT : reCapturePlus "tags".toList ("-- tags: ".toList ++ joinSp tags)
      = some (joinSp tags) := by
    rw [hXT]
    exact reCapturePlus_tags_line c0 restT hc0 (hXT ▸ hnlT)
  have e2 : ∀ st : ScanState, st.inHeader = true →
      scanLine st ("-- tags: ".toList ++ joinSp tags) =
        { st with tags := fields (joinSp tags) } :=
    fun st h => scanLine_tags_directive st ("-- tags: ".toList ++ joinSp tags)
      h rfl _ hcapT
  have hcapP : reCapturePlus "platform".toList ("-- platform: ".toList ++ plat)
      = some plat := by
    rw [hXP]
    exact reCapturePlus_platform_line d0 restP hd0 (hXP ▸ hnlP)
  have e3 : ∀ st : ScanState, st.inHeader = true →
      scanLine st ("-- platform: ".toList ++ plat) =
        { st with platform := normalizePlatform (goTrimSpace plat) } :=
    fun st h => scanLine_platform_directive st ("-- platform: ".toList ++ plat)
      h rfl rfl _ hcapP
  have hcapN : reCaptureDigits "interval".toList
      ("-- interval: ".toList ++ natToDigits n) = some (natToDigits n) := by
    rw [hXN]
    exact reCaptureDigits_interval_line g0 restN hg0 (hXN ▸ hdigN)
  have e4 : ∀ st : ScanState, st.inHeader = true →
      scanLine st ("-- interval: ".toList ++ natToDigits n) =
        { st with interval := sscanfNat st.interval (natToDigits n) } :=
    fun st h => scanLine_interval_directive st
      ("-- interval: ".toList ++ natToDigits n) h rfl rfl rfl _ hcapN
  have e5 : ∀ st : ScanState,
      scanLine st ("SELECT 1;".toList) =
        { st with inHeader := false, sqlLines := st.sqlLines ++ ["SELECT 1;".toList] } :=
    fun st => scanLine_flip st ("SELECT 1;".toList) (by decide) (by decide)
  unfold parseQueryLines
  dsimp only
  rw [List.foldl_cons, e1, List.foldl_cons, e2 _ rfl, List.foldl_cons, e3 _ rfl,
    List.foldl_cons, e4 _ rfl, List.foldl_cons, e5 _, List.foldl_nil]
  refine ⟨?_, ?_, ?_, ?_⟩
  · dsimp only
    rw [if_neg hdesc2]
  · dsimp only
    exact fields_joinSp tags htags1 htags2
  · dsimp only
    rw [goTrimSpace_eq_self plat hplat2]
  · dsimp only
    unfold sscanfNat
    rw [digitsToNat_natToDigits, if_pos hn]

/-- C2 counterexample: in a synthetic header file whose platform
directive carries the accepted token `posix`, the re-parsed platform is
`darwin,linux`, not `posix`: the parsed metadata does not reproduce the
directive values exactly (tags, interval and description do round-trip
on the same file). -/
theorem parseQuery_metadata_roundtrip_counterexample :
    (parseQueryLines ["-- Sample description".toList, "-- tags: a b".toList,
      "-- platform: posix".toList, "-- interval: 300".toList, "SELECT 1;".toList]
      "n".toList "detection".toList [] 0).platform ≠ "posix".toList ∧
    (parseQueryLines ["-- Sample description".toList, "-- tags: a b".toList,
      "-- platform: posix".toList, "-- interval: 300".toList, "SELECT 1;".toList]
      "n".toList "detection".toList [] 0).platform = "darwin,linux".toList ∧
    (parseQueryLines ["-- Sample description".toList, "-- tags: a b".toList,
      "-- platform: posix".toList, "-- interval: 300".toList, "SELECT 1;".toList]
      "n".toList "detection".toList [] 0).tags = ["a".toList, "b".toList] ∧
    (parseQueryLines ["-- Sample description".toList, "-- tags: a b".toList,
      "-- platform: posix".toList, "-- interval: 300".toList, "SELECT 1;".toList]
      "n".toList "detection".toList [] 0).interval = 300 ∧
    (parseQueryLines ["-- Sample description".toList, "-- tags: a b".toList,
      "-- platform: posix".toList, "-- interval: 300".toList, "SELECT 1;".toList]
      "n".toList "detection".toList [] 0).description
      = "Sample description".toList := by
  decide

theorem parseQuery_metadata_roundtrip_witness :
    (goTrimSpace "Sample description".toList = "Sample description".toList ∧
     "Sample description".toList ≠ ([] : List Char) ∧
     "references:".toList.isPrefixOf "Sample description".toList = false ∧
     "false positives:".toList.isPrefixOf "Sample description".toList = false ∧
     isDirective ('-' :: '-' :: ' ' :: "Sample description".toList) = false ∧
     ([['a'], ['b', 'c']] : List (List Char)) ≠ [] ∧
     (∀ t ∈ ([['a'], ['b', 'c']] : List (List Char)),
        t ≠ [] ∧ ∀ c ∈ t, goSpace c = false) ∧
     "darwin".toList ≠ ([] : List Char) ∧
     (∀ c ∈ "darwin".toList, goSpace c = false) ∧
     (60 : Nat) < 2 ^ 63) ∧
    (let q := parseQueryLines
      ['-' :: '-' :: ' ' :: "Sample description".toList,
       "-- tags: ".toList ++ joinSp [['a'], ['b', 'c']],
       "-- platform: ".toList ++ "darwin".toList,
       "-- interval: ".toList ++ natToDigits 60,
       "SELECT 1;".toList] "n".toList "detection".toList [] 0
     q.description = "Sample description".toList ∧
       q.tags = [['a'], ['b', 'c']] ∧
       q.platform = normalizePlatform "darwin".toList ∧ q.interval = 60) :=
  ⟨⟨by decide, by decide, by decide, by decide, by decide, by decide, by decide,
    by decide, by decide, by decide⟩,
   parseQuery_metadata_roundtrip "Sample description".toList "darwin".toList
     [['a'], ['b', 'c']] 60 "n".toList "detection".toList [] 0
     (by decide) (by decide) (by decide) (by decide) (by decide)
     (by decide) (by decide) (by decide) (by decide) (by decide)⟩
